import Mathlib

/-!
Verification of the text-selection, drawing, shape, rendering and search
logic of the `flet_pdf_viewer` package.

The Python source is embedded shallowly: dataclasses become structures,
`float` coordinates become `ℚ`, Python's banker's rounding (`round`)
becomes `pyRound`, Python's stable `sorted` becomes `List.mergeSort`,
and methods that read and write handler state become pure functions on
explicit state values.
-/

namespace PdfViewer

/-- Embeds `types.SelectableChar`: a character with scaled position for
selection.  Coordinates are rationals standing for the Python floats. -/
structure SelectableChar where
  char : String
  x : ℚ
  y : ℚ
  width : ℚ
  height : ℚ
  page_index : ℕ
  page_offset_x : ℚ
  page_offset_y : ℚ
deriving DecidableEq, Repr

/-- `char_x1 = char.x + char.page_offset_x` as computed throughout
`selection.py`. -/
def SelectableChar.xOff (c : SelectableChar) : ℚ := c.x + c.page_offset_x

/-- `char_y1 = char.y + char.page_offset_y` as computed throughout
`selection.py`. -/
def SelectableChar.yOff (c : SelectableChar) : ℚ := c.y + c.page_offset_y

/-- `char_x2 = char_x1 + char.width`. -/
def SelectableChar.rightOff (c : SelectableChar) : ℚ := c.xOff + c.width

/-- `char_y2 = char_y1 + char.height`. -/
def SelectableChar.botOff (c : SelectableChar) : ℚ := c.yOff + c.height

/-- Python's built-in `round` to an integer (banker's rounding: ties go
to the even neighbour), modelled exactly on the rationals. -/
def pyRound (q : ℚ) : ℤ :=
  let f := ⌊q⌋
  let frac := q - f
  if frac < 1/2 then f
  else if 1/2 < frac then f + 1
  else if f % 2 = 0 then f else f + 1

/-- The line bucket `y_key = round((char.y + char.page_offset_y) / 10)`
of `selection.py` (lines 146 and 180). -/
def line_key (c : SelectableChar) : ℤ := pyRound (c.yOff / 10)

/-- Embeds `SelectionHandler._rects_intersect` (selection.py lines
195-207): strict (open) rectangle intersection. -/
def rects_intersect (ax1 ay1 ax2 ay2 bx1 by1 bx2 by2 : ℚ) : Bool :=
  decide (ax1 < bx2 ∧ ax2 > bx1 ∧ ay1 < by2 ∧ ay2 > by1)

/-- The directly intersecting characters of `_update_selected_chars`
(selection.py lines 126-137): the chars of the universe whose offset box
openly intersects the given normalized rectangle. -/
def directly_selected (x1 y1 x2 y2 : ℚ) (univ : List SelectableChar) :
    List SelectableChar :=
  univ.filter fun c => rects_intersect x1 y1 x2 y2 c.xOff c.yOff c.rightOff c.botOff

/-- Boolean `≤` on `ℤ`, the comparison behind `sorted(lines.keys())`. -/
def int_le (a b : ℤ) : Bool := decide (a ≤ b)

/-- Boolean comparison behind `sorted(..., key=lambda c: c.x + c.page_offset_x)`. -/
def left_le (a b : SelectableChar) : Bool := decide (a.xOff ≤ b.xOff)

/-- `sorted_line_keys = sorted(lines.keys())` (selection.py line 157):
the distinct line keys of the directly selected chars, in ascending
order.  `dedup` models the dict keys, `mergeSort` models `sorted`. -/
def sorted_line_keys (d : List SelectableChar) : List ℤ :=
  ((d.map line_key).dedup).mergeSort int_le

/-- `first_line_key = sorted_line_keys[0]` (selection.py line 158). -/
def first_line_key (d : List SelectableChar) : ℤ := (sorted_line_keys d).headD 0

/-- `last_line_key = sorted_line_keys[-1]` (selection.py line 159). -/
def last_line_key (d : List SelectableChar) : ℤ := (sorted_line_keys d).getLastD 0

/-- `first_line_chars` (selection.py lines 161-163): the directly
selected chars on the first line, sorted by `x + page_offset_x`. -/
def first_line_chars (d : List SelectableChar) : List SelectableChar :=
  (d.filter fun c => decide (line_key c = first_line_key d)).mergeSort left_le

/-- `first_selected_x = first_line_chars[0].x + first_line_chars[0].page_offset_x`
(selection.py line 164). -/
def first_selected_x (d : List SelectableChar) : ℚ :=
  ((first_line_chars d).head?.map SelectableChar.xOff).getD 0

/-- `last_line_chars` (selection.py lines 166-168). -/
def last_line_chars (d : List SelectableChar) : List SelectableChar :=
  (d.filter fun c => decide (line_key c = last_line_key d)).mergeSort left_le

/-- `last_selected_x = last_line_chars[-1].x + ....page_offset_x + ....width`
(selection.py lines 169-173): the right edge of the LAST element of the
sorted last line — the char with the greatest left edge. -/
def last_selected_x (d : List SelectableChar) : ℚ :=
  ((last_line_chars d).getLast?.map SelectableChar.rightOff).getD 0

/-- The per-char inclusion test of the extension loop (selection.py
lines 177-193), as a predicate over the character universe. -/
def extend_keep (fk lk : ℤ) (fx lx : ℚ) (c : SelectableChar) : Bool :=
  if line_key c < fk ∨ lk < line_key c then false
  else if line_key c = fk then decide (fx - 1 ≤ c.xOff)
  else if line_key c = lk then decide (c.rightOff ≤ lx + 1)
  else true

/-- Embeds `SelectionHandler._update_selected_chars` (selection.py lines
116-193) as a pure function from the drag endpoints and the selectable
universe to the new `selected_chars` list. -/
def update_selected_chars (sx sy ex ey : ℚ) (univ : List SelectableChar) :
    List SelectableChar :=
  let x1 := min sx ex
  let y1 := min sy ey
  let x2 := max sx ex
  let y2 := max sy ey
  let d := directly_selected x1 y1 x2 y2 univ
  if d.isEmpty then []
  else if (d.map line_key).dedup.length ≤ 1 then d
  else univ.filter
    (extend_keep (first_line_key d) (last_line_key d)
      (first_selected_x d) (last_selected_x d))

/-- Embeds `SelectionState` (selection.py lines 13-20). -/
structure SelectionState where
  startPt : Option (ℚ × ℚ)
  endPt : Option (ℚ × ℚ)
  is_selecting : Bool
  selected_chars : List SelectableChar
deriving DecidableEq, Repr

/-- Embeds `SelectionHandler.update_selection` (selection.py lines
98-104) on an explicit state and character universe. -/
def update_selection (ux uy : ℚ) (univ : List SelectableChar)
    (st : SelectionState) : SelectionState :=
  if st.is_selecting then
    match st.startPt with
    | some s =>
        { st with endPt := some (ux, uy),
                  selected_chars := update_selected_chars s.1 s.2 ux uy univ }
    | none => { st with endPt := some (ux, uy) }
  else st

/-- While selecting with a start point recorded, `update_selection`
stores exactly the result of the `_update_selected_chars` logic. -/
theorem update_selection_selected_chars (ux uy : ℚ) (univ : List SelectableChar)
    (st : SelectionState) (s : ℚ × ℚ) (hsel : st.is_selecting = true)
    (hstart : st.startPt = some s) :
    (update_selection ux uy univ st).selected_chars
      = update_selected_chars s.1 s.2 ux uy univ := by
  simp [update_selection, hsel, hstart]

/-! Helper lemmas about deduplication and stable sorting, used to reason
about the dict-of-lines and `sorted(...)` idioms of `selection.py`. -/

theorem dedup_length_le_one {α} [DecidableEq α] {l : List α} {k : α}
    (h : ∀ x ∈ l, x = k) : l.dedup.length ≤ 1 := by
  have hsub : ∀ x ∈ l.dedup, x = k := fun x hx => h x (l.dedup_sublist.mem hx)
  have hnd : l.dedup.Nodup := l.nodup_dedup
  match hm : l.dedup with
  | [] => simp
  | [_] => simp
  | a :: b :: t =>
    rw [hm] at hsub hnd
    have ha : a = k := hsub a (by simp)
    have hb : b = k := hsub b (by simp)
    rw [List.nodup_cons] at hnd
    exact absurd (by simp [ha, hb]) hnd.1

theorem getLastD_mem {α} (x : α) (l : List α) (d0 : α) :
    (x :: l).getLastD d0 ∈ x :: l := by
  induction l generalizing x d0 with
  | nil => simp
  | cons b t ih =>
    rw [List.getLastD_cons]
    exact List.mem_cons_of_mem x (ih b x)

theorem pairwise_headD {α} {R : α → α → Prop} {x : α} {xs : List α}
    (hp : (x :: xs).Pairwise R) : ∀ y ∈ x :: xs, y = x ∨ R x y := by
  intro y hy
  rcases List.mem_cons.mp hy with h | h
  · exact Or.inl h
  · exact Or.inr ((List.pairwise_cons.mp hp).1 y h)

theorem pairwise_getLastD {α} {R : α → α → Prop} (l : List α) (d0 : α)
    (hp : l.Pairwise R) :
    ∀ y ∈ l, y = l.getLastD d0 ∨ R y (l.getLastD d0) := by
  induction l generalizing d0 with
  | nil => simp
  | cons x xs ih =>
    intro y hy
    cases xs with
    | nil => simp at hy; simp [hy]
    | cons z zs =>
      rw [List.getLastD_cons]
      have hp' := List.pairwise_cons.mp hp
      rcases List.mem_cons.mp hy with h | h
      · subst h
        right
        have hlast : (z :: zs).getLastD y ∈ z :: zs := getLastD_mem z zs y
        exact hp'.1 _ hlast
      · exact ih x hp'.2 y h

theorem mergeSort_ne_nil {α} {l : List α} {le : α → α → Bool} (h : l ≠ []) :
    l.mergeSort le ≠ [] := by
  intro hc
  exact h (List.eq_nil_of_length_eq_zero
    (by rw [← (List.mergeSort_perm l le).length_eq, hc]; rfl))

theorem mem_mergeSort {α} {l : List α} {le : α → α → Bool} {a : α} :
    a ∈ l.mergeSort le ↔ a ∈ l :=
  (List.mergeSort_perm l le).mem_iff

/-- `int_le` is transitive and total (side conditions of
`List.sorted_mergeSort`). -/
theorem int_le_trans : ∀ a b c : ℤ,
    int_le a b = true → int_le b c = true → int_le a c = true := by
  intro a b c hab hbc
  simp only [int_le, decide_eq_true_eq] at *
  omega

theorem int_le_total : ∀ a b : ℤ, (int_le a b || int_le b a) = true := by
  intro a b
  simp only [int_le, Bool.or_eq_true, decide_eq_true_eq]
  omega

theorem left_le_trans : ∀ a b c : SelectableChar,
    left_le a b = true → left_le b c = true → left_le a c = true := by
  intro a b c hab hbc
  simp only [left_le, decide_eq_true_eq] at *
  linarith

theorem left_le_total : ∀ a b : SelectableChar,
    (left_le a b || left_le b a) = true := by
  intro a b
  simp only [left_le, Bool.or_eq_true, decide_eq_true_eq]
  exact le_total _ _

/-- C2: single-line selection.  When every directly-intersecting
character falls in one line bucket, `_update_selected_chars` sets
`selected_chars` to exactly the set of characters whose offset box
openly intersects the normalized drag rectangle, with no extension. -/
theorem update_single_line (sx sy ex ey : ℚ) (univ : List SelectableChar) (k : ℤ)
    (h : ∀ c ∈ directly_selected (min sx ex) (min sy ey) (max sx ex) (max sy ey) univ,
      line_key c = k) :
    update_selected_chars sx sy ex ey univ
      = directly_selected (min sx ex) (min sy ey) (max sx ex) (max sy ey) univ := by
  unfold update_selected_chars
  set d := directly_selected (min sx ex) (min sy ey) (max sx ex) (max sy ey) univ with hd
  have hkeys : ∀ x ∈ d.map line_key, x = k := by
    intro x hx
    rcases List.mem_map.mp hx with ⟨c, hc, rfl⟩
    exact h c hc
  have hlen : (d.map line_key).dedup.length ≤ 1 := dedup_length_le_one hkeys
  by_cases hemp : d.isEmpty
  · simp [hemp, List.isEmpty_iff.mp hemp]
  · simp [hemp, hlen]

/-- The spec's single-line scenario: ten 10×10 characters on one line at
`x = 0, 10, ..., 90`, all on page 0 with zero page offsets. -/
def tenChars : List SelectableChar :=
  [⟨"0", 0, 0, 10, 10, 0, 0, 0⟩, ⟨"1", 10, 0, 10, 10, 0, 0, 0⟩,
   ⟨"2", 20, 0, 10, 10, 0, 0, 0⟩, ⟨"3", 30, 0, 10, 10, 0, 0, 0⟩,
   ⟨"4", 40, 0, 10, 10, 0, 0, 0⟩, ⟨"5", 50, 0, 10, 10, 0, 0, 0⟩,
   ⟨"6", 60, 0, 10, 10, 0, 0, 0⟩, ⟨"7", 70, 0, 10, 10, 0, 0, 0⟩,
   ⟨"8", 80, 0, 10, 10, 0, 0, 0⟩, ⟨"9", 90, 0, 10, 10, 0, 0, 0⟩]

/-- C2 witness: for the drag rectangle `(5,0,35,10)` over `tenChars`
every directly-intersecting char is in line bucket 0, and the selection
is exactly the chars at indices 0-3. -/
theorem update_single_line_witness :
    (∀ c ∈ directly_selected (min 5 35) (min 0 10) (max 5 35) (max 0 10) tenChars,
      line_key c = 0)
    ∧ update_selected_chars 5 0 35 10 tenChars
      = [⟨"0", 0, 0, 10, 10, 0, 0, 0⟩, ⟨"1", 10, 0, 10, 10, 0, 0, 0⟩,
         ⟨"2", 20, 0, 10, 10, 0, 0, 0⟩, ⟨"3", 30, 0, 10, 10, 0, 0, 0⟩] := by
  have h : ∀ c ∈ directly_selected (min 5 35) (min 0 10) (max 5 35) (max 0 10) tenChars,
      line_key c = 0 := by
    norm_num [directly_selected, tenChars, rects_intersect, List.filter,
      SelectableChar.xOff, SelectableChar.yOff, SelectableChar.rightOff,
      SelectableChar.botOff]
    norm_num [line_key, pyRound, SelectableChar.yOff]
  refine ⟨h, (update_single_line 5 0 35 10 tenChars 0 h).trans ?_⟩
  norm_num [directly_selected, tenChars, rects_intersect, List.filter,
    SelectableChar.xOff, SelectableChar.yOff, SelectableChar.rightOff,
    SelectableChar.botOff]

theorem mem_sorted_line_keys (d : List SelectableChar) (k : ℤ) :
    k ∈ sorted_line_keys d ↔ k ∈ d.map line_key :=
  mem_mergeSort.trans (List.mem_dedup)

theorem first_line_key_eq (d : List SelectableChar) {x : ℤ} {xs : List ℤ}
    (hc : sorted_line_keys d = x :: xs) : first_line_key d = x := by
  show (sorted_line_keys d).headD 0 = x
  rw [hc]
  rfl

theorem last_line_key_eq (d : List SelectableChar) {x : ℤ} {xs : List ℤ}
    (hc : sorted_line_keys d = x :: xs) :
    last_line_key d = (x :: xs).getLastD 0 := by
  show (sorted_line_keys d).getLastD 0 = _
  rw [hc]

/-- `sorted_line_keys[0]` is the minimum bucket key among the directly
selected chars. -/
theorem first_line_key_spec (d : List SelectableChar) (hne : d.map line_key ≠ []) :
    first_line_key d ∈ d.map line_key ∧
      ∀ k ∈ d.map line_key, first_line_key d ≤ k := by
  have hm : (d.map line_key).dedup ≠ [] := by
    simpa [List.dedup_eq_nil] using hne
  have hs : sorted_line_keys d ≠ [] := mergeSort_ne_nil hm
  have hpw : (sorted_line_keys d).Pairwise (fun a b => int_le a b = true) :=
    List.sorted_mergeSort int_le_trans int_le_total ((d.map line_key).dedup)
  match hc : sorted_line_keys d with
  | [] => exact absurd hc hs
  | x :: xs =>
    rw [hc] at hpw
    constructor
    · have hx : x ∈ sorted_line_keys d := by rw [hc]; exact List.mem_cons_self x xs
      rw [first_line_key_eq d hc]
      exact (mem_sorted_line_keys d x).mp hx
    · intro k hk
      have hks : k ∈ x :: xs := by
        rw [← hc]; exact (mem_sorted_line_keys d k).mpr hk
      rw [first_line_key_eq d hc]
      rcases pairwise_headD hpw k hks with h | h
      · exact le_of_eq h.symm
      · simp only [int_le, decide_eq_true_eq] at h
        exact h

/-- `sorted_line_keys[-1]` is the maximum bucket key among the directly
selected chars. -/
theorem last_line_key_spec (d : List SelectableChar) (hne : d.map line_key ≠ []) :
    last_line_key d ∈ d.map line_key ∧
      ∀ k ∈ d.map line_key, k ≤ last_line_key d := by
  have hm : (d.map line_key).dedup ≠ [] := by
    simpa [List.dedup_eq_nil] using hne
  have hs : sorted_line_keys d ≠ [] := mergeSort_ne_nil hm
  have hpw : (sorted_line_keys d).Pairwise (fun a b => int_le a b = true) :=
    List.sorted_mergeSort int_le_trans int_le_total ((d.map line_key).dedup)
  match hc : sorted_line_keys d with
  | [] => exact absurd hc hs
  | x :: xs =>
    rw [hc] at hpw
    have hlast : (x :: xs).getLastD 0 ∈ x :: xs := getLastD_mem x xs 0
    constructor
    · have hmem : (x :: xs).getLastD 0 ∈ sorted_line_keys d := by rw [hc]; exact hlast
      rw [last_line_key_eq d hc]
      exact (mem_sorted_line_keys d _).mp hmem
    · intro k hk
      have hks : k ∈ x :: xs := by
        rw [← hc]; exact (mem_sorted_line_keys d k).mpr hk
      rw [last_line_key_eq d hc]
      rcases pairwise_getLastD (x :: xs) 0 hpw k hks with h | h
      · exact le_of_eq h
      · simp only [int_le, decide_eq_true_eq] at h
        exact h

/-- With at least two distinct line buckets, the minimum bucket key is
strictly below the maximum one. -/
theorem first_line_key_lt_last (d : List SelectableChar)
    (h2 : 2 ≤ (d.map line_key).dedup.length) :
    first_line_key d < last_line_key d := by
  have hnd : (sorted_line_keys d).Nodup :=
    (List.mergeSort_perm ((d.map line_key).dedup) int_le).nodup_iff.mpr
      (List.nodup_dedup _)
  have hlen : 2 ≤ (sorted_line_keys d).length := by
    unfold sorted_line_keys
    rw [(List.mergeSort_perm ((d.map line_key).dedup) int_le).length_eq]
    exact h2
  have hpw : (sorted_line_keys d).Pairwise (fun a b => int_le a b = true) :=
    List.sorted_mergeSort int_le_trans int_le_total ((d.map line_key).dedup)
  match hc : sorted_line_keys d with
  | [] => rw [hc] at hlen; simp at hlen
  | [_] => rw [hc] at hlen; simp at hlen
  | x :: y :: t =>
    rw [hc] at hnd hpw
    have hlast : (y :: t).getLastD x ∈ y :: t := getLastD_mem y t x
    have hle : int_le x ((y :: t).getLastD x) = true :=
      (List.pairwise_cons.mp hpw).1 _ hlast
    have hxne : x ∉ y :: t := (List.nodup_cons.mp hnd).1
    have hne2 : x ≠ (y :: t).getLastD x := fun h => hxne (h ▸ hlast)
    simp only [int_le, decide_eq_true_eq] at hle
    have hf : first_line_key d = x := first_line_key_eq d hc
    have hl : last_line_key d = (y :: t).getLastD x := by
      rw [last_line_key_eq d hc]
      exact List.getLastD_cons 0 x (y :: t)
    rw [hf, hl]
    omega

/-- `first_selected_x` is attained by a directly-selected char of the
first line and bounds all of them from below: it is the minimum
`x + page_offset_x` on that line. -/
theorem first_selected_x_spec (d : List SelectableChar)
    (hne : d.map line_key ≠ []) :
    (∃ c ∈ d, line_key c = first_line_key d ∧ c.xOff = first_selected_x d) ∧
    (∀ c ∈ d, line_key c = first_line_key d → first_selected_x d ≤ c.xOff) := by
  obtain ⟨c0, hc0d, hc0k⟩ := List.mem_map.mp (first_line_key_spec d hne).1
  have hfl : (d.filter fun c => decide (line_key c = first_line_key d)) ≠ [] := by
    intro h
    have hmem : c0 ∈ d.filter fun c => decide (line_key c = first_line_key d) :=
      List.mem_filter.mpr ⟨hc0d, by simp [hc0k]⟩
    rw [h] at hmem
    simp at hmem
  have hs : first_line_chars d ≠ [] := mergeSort_ne_nil hfl
  have hpw : (first_line_chars d).Pairwise (fun a b => left_le a b = true) :=
    List.sorted_mergeSort left_le_trans left_le_total _
  match hc : first_line_chars d with
  | [] => exact absurd hc hs
  | x :: xs =>
    rw [hc] at hpw
    have hx_val : first_selected_x d = x.xOff := by
      show ((first_line_chars d).head?.map SelectableChar.xOff).getD 0 = _
      rw [hc]
      rfl
    have hx_mem : x ∈ d.filter fun c => decide (line_key c = first_line_key d) := by
      have : x ∈ first_line_chars d := by rw [hc]; exact List.mem_cons_self x xs
      exact mem_mergeSort.mp this
    obtain ⟨hxd, hxk⟩ := List.mem_filter.mp hx_mem
    constructor
    · exact ⟨x, hxd, by simpa using hxk, hx_val.symm⟩
    · intro c hcd hck
      have hcs : c ∈ x :: xs := by
        rw [← hc]
        exact mem_mergeSort.mpr (List.mem_filter.mpr ⟨hcd, by simp [hck]⟩)
      rw [hx_val]
      rcases pairwise_headD hpw c hcs with h | h
      · rw [h]
      · simp only [left_le, decide_eq_true_eq] at h
        exact h

/-- `last_selected_x` is the right edge of a directly-selected char of
the last line whose LEFT edge is maximal on that line (not necessarily
the maximal right edge). -/
theorem last_selected_x_spec (d : List SelectableChar)
    (hne : d.map line_key ≠ []) :
    ∃ cM ∈ d, line_key cM = last_line_key d ∧ cM.rightOff = last_selected_x d ∧
      ∀ c ∈ d, line_key c = last_line_key d → c.xOff ≤ cM.xOff := by
  obtain ⟨c0, hc0d, hc0k⟩ := List.mem_map.mp (last_line_key_spec d hne).1
  have hfl : (d.filter fun c => decide (line_key c = last_line_key d)) ≠ [] := by
    intro h
    have hmem : c0 ∈ d.filter fun c => decide (line_key c = last_line_key d) :=
      List.mem_filter.mpr ⟨hc0d, by simp [hc0k]⟩
    rw [h] at hmem
    simp at hmem
  have hs : last_line_chars d ≠ [] := mergeSort_ne_nil hfl
  have hpw : (last_line_chars d).Pairwise (fun a b => left_le a b = true) :=
    List.sorted_mergeSort left_le_trans left_le_total _
  match hc : last_line_chars d with
  | [] => exact absurd hc hs
  | x :: xs =>
    rw [hc] at hpw
    have hM_val : last_selected_x d = ((x :: xs).getLastD x).rightOff := by
      show ((last_line_chars d).getLast?.map SelectableChar.rightOff).getD 0 = _
      rw [hc, List.getLastD_eq_getLast?]
      cases hg : (x :: xs).getLast? with
      | none => exact absurd (List.getLast?_eq_none_iff.mp hg) (by simp)
      | some m => rfl
    have hM_mem : (x :: xs).getLastD x ∈ last_line_chars d := by
      rw [hc]
      exact getLastD_mem x xs x
    obtain ⟨hMd, hMk⟩ := List.mem_filter.mp (mem_mergeSort.mp hM_mem)
    refine ⟨(x :: xs).getLastD x, hMd, by simpa using hMk, hM_val.symm, ?_⟩
    intro c hcd hck
    have hcs : c ∈ x :: xs := by
      rw [← hc]
      exact mem_mergeSort.mpr (List.mem_filter.mpr ⟨hcd, by simp [hck]⟩)
    have hD : (x :: xs).getLastD x = (x :: xs).getLastD c := by
      rcases xs with _ | ⟨z, zs⟩
      · simp
      · cases hg : (z :: zs).getLast? with
        | none => exact absurd (List.getLast?_eq_none_iff.mp hg) (by simp)
        | some m => simp [List.getLastD_cons, List.getLastD_eq_getLast?, hg]
    rcases pairwise_getLastD (x :: xs) c hpw c hcs with h | h
    · rw [hD, ← h]
    · simp only [left_le, decide_eq_true_eq] at h
      rw [hD]
      exact h

/-- The extension predicate of the code, rephrased as the spec states
it: inside the key band, with the first-line and last-line edge
conditions as implications. -/
theorem extend_keep_eq_spec (fk lk : ℤ) (fx lx : ℚ) (hlt : fk < lk)
    (c : SelectableChar) :
    extend_keep fk lk fx lx c
      = decide ((fk ≤ line_key c ∧ line_key c ≤ lk)
          ∧ (line_key c = fk → fx - 1 ≤ c.xOff)
          ∧ (line_key c = lk → c.rightOff ≤ lx + 1)) := by
  unfold extend_keep
  split_ifs with h1 h2 h3
  · symm
    simp only [decide_eq_false_iff_not]
    rintro ⟨⟨ha, hb⟩, -, -⟩
    rcases h1 with h | h <;> omega
  · rw [decide_eq_decide]
    constructor
    · intro h
      exact ⟨⟨le_of_eq h2.symm, by omega⟩, fun _ => h,
        fun hl => absurd (h2.symm.trans hl) (ne_of_lt hlt)⟩
    · rintro ⟨-, him, -⟩
      exact him h2
  · rw [decide_eq_decide]
    push_neg at h1
    constructor
    · intro h
      exact ⟨⟨h1.1, le_of_eq h3⟩, fun he => absurd he h2, fun _ => h⟩
    · rintro ⟨-, -, him⟩
      exact him h3
  · symm
    simp only [decide_eq_true_eq]
    push_neg at h1
    exact ⟨⟨h1.1, h1.2⟩, fun he => absurd he h2, fun he => absurd he h3⟩

/-- C1 (amended): in the multi-line case the selection is rebuilt by
scanning the whole universe, keeping chars inside the key band, with the
first-line condition `x_with_offset ≥ first_selected_x - 1` where
`first_selected_x` is the MINIMUM left edge of the directly-selected
first-line chars, and the last-line condition
`x_with_offset + width ≤ last_selected_x + 1` where `last_selected_x` is
the right edge of the directly-selected last-line char with the GREATEST
left edge (not the maximum right edge). -/
theorem update_multi_line (sx sy ex ey : ℚ) (univ d : List SelectableChar)
    (hd : d = directly_selected (min sx ex) (min sy ey) (max sx ex) (max sy ey) univ)
    (h2 : 2 ≤ (d.map line_key).dedup.length) :
    (first_line_key d ∈ d.map line_key ∧ ∀ k ∈ d.map line_key, first_line_key d ≤ k)
    ∧ (last_line_key d ∈ d.map line_key ∧ ∀ k ∈ d.map line_key, k ≤ last_line_key d)
    ∧ (∃ c ∈ d, line_key c = first_line_key d ∧ c.xOff = first_selected_x d)
    ∧ (∀ c ∈ d, line_key c = first_line_key d → first_selected_x d ≤ c.xOff)
    ∧ (∃ cM ∈ d, line_key cM = last_line_key d ∧ cM.rightOff = last_selected_x d
        ∧ ∀ c ∈ d, line_key c = last_line_key d → c.xOff ≤ cM.xOff)
    ∧ update_selected_chars sx sy ex ey univ = univ.filter fun c => decide
        ((first_line_key d ≤ line_key c ∧ line_key c ≤ last_line_key d)
         ∧ (line_key c = first_line_key d → first_selected_x d - 1 ≤ c.xOff)
         ∧ (line_key c = last_line_key d → c.rightOff ≤ last_selected_x d + 1)) := by
  have hne : d.map line_key ≠ [] := by
    intro h
    rw [h] at h2
    simp at h2
  have hdne : d ≠ [] := by
    intro h
    exact hne (by simp [h])
  refine ⟨first_line_key_spec d hne, last_line_key_spec d hne,
    (first_selected_x_spec d hne).1, (first_selected_x_spec d hne).2,
    last_selected_x_spec d hne, ?_⟩
  have hlt := first_line_key_lt_last d h2
  simp only [update_selected_chars]
  rw [← hd]
  rw [if_neg (by simp [List.isEmpty_iff, hdne]), if_neg (by omega)]
  exact List.filter_congr fun c _ => extend_keep_eq_spec _ _ _ _ hlt c

/-- C10 (amended): a directly-intersecting char survives the rebuild
exactly when the selection is single-line, or it is not on the last
selected line, or its right edge is within tolerance of the code's
`last_selected_x`; in particular directly-selected chars on the first
and on strictly intermediate lines are always kept. -/
theorem update_superset (sx sy ex ey : ℚ) (univ d : List SelectableChar)
    (hd : d = directly_selected (min sx ex) (min sy ey) (max sx ex) (max sy ey) univ)
    (c : SelectableChar) (hc : c ∈ d) :
    c ∈ update_selected_chars sx sy ex ey univ ↔
      ((d.map line_key).dedup.length ≤ 1
       ∨ line_key c ≠ last_line_key d
       ∨ c.rightOff ≤ last_selected_x d + 1) := by
  have hdne : d ≠ [] := by
    rintro rfl
    simp at hc
  have hne : d.map line_key ≠ [] := by
    intro h
    exact hdne (by simpa using h)
  have hcu : c ∈ univ := by
    rw [hd] at hc
    exact (List.mem_filter.mp hc).1
  simp only [update_selected_chars]
  rw [← hd]
  rw [if_neg (by simp [List.isEmpty_iff, hdne])]
  by_cases hlen : (d.map line_key).dedup.length ≤ 1
  · rw [if_pos hlen]
    simp [hc, hlen]
  · rw [if_neg hlen]
    have h2 : 2 ≤ (d.map line_key).dedup.length := by omega
    have hlt := first_line_key_lt_last d h2
    have hkmem : line_key c ∈ d.map line_key := List.mem_map_of_mem _ hc
    have hfk := (first_line_key_spec d hne).2 _ hkmem
    have hlk := (last_line_key_spec d hne).2 _ hkmem
    rw [List.mem_filter]
    simp only [hcu, true_and]
    rw [extend_keep_eq_spec _ _ _ _ hlt c]
    simp only [decide_eq_true_eq]
    constructor
    · rintro ⟨-, -, him⟩
      by_cases hkl : line_key c = last_line_key d
      · exact Or.inr (Or.inr (him hkl))
      · exact Or.inr (Or.inl hkl)
    · intro h
      refine ⟨⟨hfk, hlk⟩, fun hf => ?_, fun hl => ?_⟩
      · have := (first_selected_x_spec d hne).2 c hc hf
        linarith
      · rcases h with h | h | h
        · exact absurd h hlen
        · exact absurd hl h
        · exact h

/-! A concrete multi-line universe: one 10-wide char on line 0, and on
line 2 a very wide char `exP` (left edge 0, right edge 100) next to a
narrow char `exQ` (left edge 10, right edge 15).  The drag rectangle
`(-1,-1)-(200,35)` intersects all three. -/

def exA : SelectableChar := ⟨"a", 0, 0, 10, 10, 0, 0, 0⟩

def exP : SelectableChar := ⟨"p", 0, 20, 100, 10, 0, 0, 0⟩

def exQ : SelectableChar := ⟨"q", 10, 20, 5, 10, 0, 0, 0⟩

def exUniv : List SelectableChar := [exA, exP, exQ]

theorem exDirect_eval :
    directly_selected (min (-1) 200) (min (-1) 35) (max (-1) 200) (max (-1) 35) exUniv
      = exUniv := by
  norm_num [directly_selected, exUniv, exA, exP, exQ, rects_intersect, List.filter,
    SelectableChar.xOff, SelectableChar.yOff, SelectableChar.rightOff,
    SelectableChar.botOff, min_def, max_def]

theorem exKeys_eval : exUniv.map line_key = [0, 2, 2] := by
  norm_num [exUniv, exA, exP, exQ, line_key, pyRound, SelectableChar.yOff]

theorem exSortedKeys_eval : sorted_line_keys exUniv = [0, 2] := by
  rw [sorted_line_keys, exKeys_eval]
  rw [show ([0, 2, 2] : List ℤ).dedup = [0, 2] by decide]
  exact List.mergeSort_of_sorted (by decide)

theorem exFK_eval : first_line_key exUniv = 0 := by
  rw [first_line_key, exSortedKeys_eval]
  rfl

theorem exLK_eval : last_line_key exUniv = 2 := by
  rw [last_line_key, exSortedKeys_eval]
  rfl

theorem exFLC_eval : first_line_chars exUniv = [exA] := by
  rw [first_line_chars]
  have hf : (exUniv.filter fun c => decide (line_key c = first_line_key exUniv))
      = [exA] := by
    rw [exFK_eval]
    norm_num [exUniv, exA, exP, exQ, line_key, pyRound, SelectableChar.yOff,
      List.filter]
  rw [hf]
  exact List.mergeSort_of_sorted (by simp)

theorem exFX_eval : first_selected_x exUniv = 0 := by
  rw [first_selected_x, exFLC_eval]
  norm_num [exA, SelectableChar.xOff]

theorem exLLC_eval : last_line_chars exUniv = [exP, exQ] := by
  rw [last_line_chars]
  have hf : (exUniv.filter fun c => decide (line_key c = last_line_key exUniv))
      = [exP, exQ] := by
    rw [exLK_eval]
    norm_num [exUniv, exA, exP, exQ, line_key, pyRound, SelectableChar.yOff,
      List.filter]
  rw [hf]
  refine List.mergeSort_of_sorted ?_
  norm_num [left_le, exP, exQ, SelectableChar.xOff]

theorem exLX_eval : last_selected_x exUniv = 15 := by
  rw [last_selected_x, exLLC_eval]
  norm_num [exQ, SelectableChar.rightOff, SelectableChar.xOff]

theorem exUpdate_eval :
    update_selected_chars (-1) (-1) 200 35 exUniv = [exA, exQ] := by
  simp only [update_selected_chars]
  rw [exDirect_eval, exKeys_eval]
  rw [show ([0, 2, 2] : List ℤ).dedup = [0, 2] by decide]
  rw [if_neg (by simp [exUniv]), if_neg (by norm_num)]
  rw [exFK_eval, exLK_eval, exFX_eval, exLX_eval]
  norm_num [exUniv, exA, exP, exQ, extend_keep, line_key, pyRound,
    SelectableChar.yOff, SelectableChar.xOff, SelectableChar.rightOff, List.filter]

/-- C10 counterexample: `exP` directly intersects the drag rectangle
(it is in the directly-selected set) yet the multi-line extension drops
it, because its right edge 100 exceeds `last_selected_x + 1 = 16`. -/
theorem update_superset_cex :
    exP ∈ directly_selected (min (-1) 200) (min (-1) 35) (max (-1) 200) (max (-1) 35) exUniv
    ∧ exP ∉ update_selected_chars (-1) (-1) 200 35 exUniv := by
  rw [exDirect_eval, exUpdate_eval]
  constructor
  · simp [exUniv]
  · intro h
    rcases List.mem_cons.mp h with h | h
    · exact absurd (congrArg SelectableChar.char h) (by simp [exP, exA])
    · rcases List.mem_cons.mp h with h | h
      · exact absurd (congrArg SelectableChar.char h) (by simp [exP, exQ])
      · simp at h

/-- C10 witness: the amended retention criterion applied to the concrete
multi-line drag, at the narrow last-line char `exQ`. -/
theorem update_superset_witness :
    exQ ∈ directly_selected (min (-1) 200) (min (-1) 35) (max (-1) 200) (max (-1) 35) exUniv
    ∧ (exQ ∈ update_selected_chars (-1) (-1) 200 35 exUniv ↔
        ((exUniv.map line_key).dedup.length ≤ 1
         ∨ line_key exQ ≠ last_line_key exUniv
         ∨ exQ.rightOff ≤ last_selected_x exUniv + 1)) :=
  ⟨by rw [exDirect_eval]; simp [exUniv],
   update_superset (-1) (-1) 200 35 exUniv exUniv exDirect_eval.symm exQ
     (by simp [exUniv])⟩

/-- Minimum of a list of rationals (first element as the base case),
used only to phrase C1's claimed `firstSelectedX`. -/
def listMinD : List ℚ → ℚ
  | [] => 0
  | x :: xs => xs.foldl min x

/-- Maximum of a list of rationals (first element as the base case),
used only to phrase C1's claimed `lastSelectedX`. -/
def listMaxD : List ℚ → ℚ
  | [] => 0
  | x :: xs => xs.foldl max x

/-- The claim's `firstSelectedX`: the minimum `x_with_offset` among
directly-selected chars on the first line. -/
def claim_first_selected_x (d : List SelectableChar) : ℚ :=
  listMinD ((d.filter fun c => decide (line_key c = first_line_key d)).map
    SelectableChar.xOff)

/-- The claim's `lastSelectedX`: the MAXIMUM `x_with_offset + width`
among directly-selected chars on the last line (this is what C1 states;
the code instead takes the right edge of the char with the greatest left
edge). -/
def claim_last_selected_x (d : List SelectableChar) : ℚ :=
  listMaxD ((d.filter fun c => decide (line_key c = last_line_key d)).map
    SelectableChar.rightOff)

/-- The multi-line rebuild exactly as claim C1 words it, with
`lastSelectedX` the maximum right edge. -/
def claim_update_multi (sx sy ex ey : ℚ) (univ : List SelectableChar) :
    List SelectableChar :=
  let d := directly_selected (min sx ex) (min sy ey) (max sx ex) (max sy ey) univ
  univ.filter fun c => decide
    ((first_line_key d ≤ line_key c ∧ line_key c ≤ last_line_key d)
     ∧ (line_key c = first_line_key d → claim_first_selected_x d - 1 ≤ c.xOff)
     ∧ (line_key c = last_line_key d → c.rightOff ≤ claim_last_selected_x d + 1))

/-- C1 counterexample: on the concrete multi-line drag the code's
result `[exA, exQ]` differs from the claim's rebuild (which keeps the
wide `exP`, since C1's `lastSelectedX` would be the maximum right edge
100 rather than the code's 15). -/
theorem update_multi_line_cex :
    2 ≤ (((directly_selected (min (-1) 200) (min (-1) 35) (max (-1) 200)
        (max (-1) 35) exUniv).map line_key).dedup.length)
    ∧ update_selected_chars (-1) (-1) 200 35 exUniv
        ≠ claim_update_multi (-1) (-1) 200 35 exUniv := by
  constructor
  · rw [exDirect_eval, exKeys_eval]
    rw [show ([0, 2, 2] : List ℤ).dedup = [0, 2] by decide]
    norm_num
  · have hclaimlx : claim_last_selected_x exUniv = 100 := by
      rw [claim_last_selected_x, exLK_eval]
      have hf : (exUniv.filter fun c => decide (line_key c = 2)) = [exP, exQ] := by
        norm_num [exUniv, exA, exP, exQ, line_key, pyRound, SelectableChar.yOff,
          List.filter]
      rw [hf]
      norm_num [listMaxD, exP, exQ, SelectableChar.rightOff, SelectableChar.xOff,
        max_def]
    have hclaim : claim_update_multi (-1) (-1) 200 35 exUniv = [exA, exP, exQ] := by
      simp only [claim_update_multi]
      rw [exDirect_eval, exFK_eval, exLK_eval, hclaimlx]
      have hclaimfx : claim_first_selected_x exUniv = 0 := by
        rw [claim_first_selected_x, exFK_eval]
        have hf : (exUniv.filter fun c => decide (line_key c = 0)) = [exA] := by
          norm_num [exUniv, exA, exP, exQ, line_key, pyRound, SelectableChar.yOff,
            List.filter]
        rw [hf]
        norm_num [listMinD, exA, SelectableChar.xOff]
      rw [hclaimfx]
      norm_num [exUniv, exA, exP, exQ, line_key, pyRound, SelectableChar.yOff,
        SelectableChar.xOff, SelectableChar.rightOff, List.filter]
    rw [exUpdate_eval, hclaim]
    intro h
    have := congrArg List.length h
    simp at this

/-- C1 witness: the amended multi-line description applied to the
concrete drag `(-1,-1)-(200,35)` over `exUniv`. -/
theorem update_multi_line_witness :
    2 ≤ ((exUniv.map line_key).dedup.length)
    ∧ ((first_line_key exUniv ∈ exUniv.map line_key
          ∧ ∀ k ∈ exUniv.map line_key, first_line_key exUniv ≤ k)
      ∧ (last_line_key exUniv ∈ exUniv.map line_key
          ∧ ∀ k ∈ exUniv.map line_key, k ≤ last_line_key exUniv)
      ∧ (∃ c ∈ exUniv, line_key c = first_line_key exUniv
          ∧ c.xOff = first_selected_x exUniv)
      ∧ (∀ c ∈ exUniv, line_key c = first_line_key exUniv
          → first_selected_x exUniv ≤ c.xOff)
      ∧ (∃ cM ∈ exUniv, line_key cM = last_line_key exUniv
          ∧ cM.rightOff = last_selected_x exUniv
          ∧ ∀ c ∈ exUniv, line_key c = last_line_key exUniv → c.xOff ≤ cM.xOff)
      ∧ update_selected_chars (-1) (-1) 200 35 exUniv = exUniv.filter fun c => decide
          ((first_line_key exUniv ≤ line_key c ∧ line_key c ≤ last_line_key exUniv)
           ∧ (line_key c = first_line_key exUniv
               → first_selected_x exUniv - 1 ≤ c.xOff)
           ∧ (line_key c = last_line_key exUniv
               → c.rightOff ≤ last_selected_x exUniv + 1))) := by
  have h2 : 2 ≤ ((exUniv.map line_key).dedup.length) := by
    rw [exKeys_eval]
    rw [show ([0, 2, 2] : List ℤ).dedup = [0, 2] by decide]
    norm_num
  exact ⟨h2, update_multi_line (-1) (-1) 200 35 exUniv exUniv exDirect_eval.symm h2⟩

/-! The `selected_text` property (selection.py lines 44-83): sort the
selected chars, then walk them accumulating output lines. -/

/-- The comparison behind
`sorted(..., key=lambda c: (c.page_index, round(c.y / 10), c.x))`
(selection.py lines 50-53): lexicographic on the Python tuple.  Note the
key uses the PAGE-LOCAL `c.y` and `c.x`, without page offsets. -/
def text_key_le (a b : SelectableChar) : Bool :=
  if a.page_index ≠ b.page_index then decide (a.page_index < b.page_index)
  else if pyRound (a.y / 10) ≠ pyRound (b.y / 10) then
    decide (pyRound (a.y / 10) < pyRound (b.y / 10))
  else decide (a.x ≤ b.x)

/-- The accumulation loop of `selected_text` (selection.py lines 55-82)
on explicit state: `res` is `result`, `cur` is `current_line`, `lastC`
is `last_char`, `lastPage` is `last_page`.  The Python float literals
`0.5` and `0.3` are the rationals `1/2` and `3/10`. -/
def walk_chars (res cur : List String) (lastC : Option SelectableChar)
    (lastPage : Option ℕ) : List SelectableChar → List String
  | [] => if cur.isEmpty then res else res ++ [String.join cur]
  | c :: rest =>
    match lastC with
    | some lc =>
      if |c.y - lc.y| > c.height * (1/2) ∨ some c.page_index ≠ lastPage then
        walk_chars (if cur.isEmpty then res else res ++ [String.join cur])
          [c.char] (some c) (some c.page_index) rest
      else
        walk_chars res
          (if some c.page_index = lastPage
              ∧ (c.width + lc.width) / 2 * (3/10) < c.x - (lc.x + lc.width)
           then cur ++ [" ", c.char] else cur ++ [c.char])
          (some c) (some c.page_index) rest
    | none => walk_chars res (cur ++ [c.char]) (some c) (some c.page_index) rest

/-- Embeds the `selected_text` property (selection.py lines 44-83). -/
def selected_text (chars : List SelectableChar) : String :=
  if chars.isEmpty then ""
  else String.intercalate "\n" (walk_chars [] [] none none (chars.mergeSort text_key_le))

/-- The walk as the spec words it (amended): from a previous char and
the current line accumulated as a string, start a new output line when
the page changes or `|y - previous.y| > height * 0.5` with the CURRENT
char's height, inserting a space on a gap `> 0.3 ×` average width. -/
def spec_lines (prev : SelectableChar) (acc : String) :
    List SelectableChar → List String
  | [] => [acc]
  | c :: rest =>
    if |c.y - prev.y| > c.height * (1/2) ∨ c.page_index ≠ prev.page_index then
      acc :: spec_lines c c.char rest
    else
      spec_lines c
        (acc ++ (if (c.width + prev.width) / 2 * (3/10) < c.x - (prev.x + prev.width)
                 then " " else "") ++ c.char) rest

/-- Amended C3 description of `selected_text`: sort by the page-local
key `(page_index, round(y/10), x)` and join the walked lines. -/
def selected_text_amended (chars : List SelectableChar) : String :=
  match chars.mergeSort text_key_le with
  | [] => ""
  | c :: rest => String.intercalate "\n" (spec_lines c c.char rest)

theorem join_singleton (s : String) : String.join [s] = s := by
  show String.join ([] ++ [s]) = s
  rw [String.join, List.foldl_append]
  simp [String.join]

theorem join_push (l : List String) (s : String) :
    String.join (l ++ [s]) = String.join l ++ s := by
  rw [String.join, List.foldl_append]
  rfl

theorem join_push2 (l : List String) (s t : String) :
    String.join (l ++ [s, t]) = String.join l ++ s ++ t := by
  rw [String.join, List.foldl_append]
  rfl

/-- The state-passing walk of the code equals the spec-phrased
line-builder, for any reachable state (non-empty current line whose last
processed char is `prev`, with `last_page = prev.page_index`). -/
theorem walk_chars_eq_spec (l : List SelectableChar) (res cur : List String)
    (prev : SelectableChar) (hcur : cur ≠ []) :
    walk_chars res cur (some prev) (some prev.page_index) l
      = res ++ spec_lines prev (String.join cur) l := by
  induction l generalizing res cur prev with
  | nil => simp [walk_chars, spec_lines, hcur]
  | cons c rest ih =>
    simp only [walk_chars, spec_lines]
    by_cases hbrk : |c.y - prev.y| > c.height * (1/2) ∨ c.page_index ≠ prev.page_index
    · rw [if_pos (by simpa using hbrk), if_pos hbrk]
      rw [if_neg (by simpa using hcur)]
      rw [ih _ [c.char] c (by simp), join_singleton]
      simp [List.append_assoc]
    · rw [if_neg (by simpa using hbrk), if_neg hbrk]
      push_neg at hbrk
      have hpage : some c.page_index = some prev.page_index := by rw [hbrk.2]
      by_cases hgap : (c.width + prev.width) / 2 * (3/10) < c.x - (prev.x + prev.width)
      · rw [if_pos ⟨hpage, hgap⟩, if_pos hgap]
        rw [ih _ (cur ++ [" ", c.char]) c (by simp), join_push2]
      · rw [if_neg (by rintro ⟨-, h⟩; exact hgap h), if_neg hgap]
        rw [ih _ (cur ++ [c.char]) c (by simp), join_push, String.append_empty]

/-- C3 (amended): `selected_text` sorts by the page-local key
`(page_index, round(y/10), x)` and starts a new output line exactly when
the page changes or `|y - previous.y|` exceeds half of the CURRENT
char's height. -/
theorem selected_text_eq_amended (chars : List SelectableChar) :
    selected_text chars = selected_text_amended chars := by
  unfold selected_text selected_text_amended
  cases hms : chars.mergeSort text_key_le with
  | nil =>
    have : chars = [] := by
      have := (List.mergeSort_perm chars text_key_le).length_eq
      rw [hms] at this
      exact List.eq_nil_of_length_eq_zero this.symm
    simp [this]
  | cons c rest =>
    have hne : chars ≠ [] := by
      intro h
      rw [h] at hms
      simp at hms
    rw [if_neg (by simpa using hne)]
    simp only [walk_chars]
    rw [show ([] : List String) ++ [c.char] = [c.char] from rfl]
    rw [walk_chars_eq_spec rest [] [c.char] c (by simp), join_singleton]
    rfl

/-- The sort key exactly as claim C3 words it: lexicographic on
`(page_index, round(y_with_offset/10), x_with_offset)`, i.e. WITH the
page offsets (the code uses the page-local coordinates instead). -/
def claim_key_le (a b : SelectableChar) : Bool :=
  if a.page_index ≠ b.page_index then decide (a.page_index < b.page_index)
  else if pyRound (a.yOff / 10) ≠ pyRound (b.yOff / 10) then
    decide (pyRound (a.yOff / 10) < pyRound (b.yOff / 10))
  else decide (a.xOff ≤ b.xOff)

/-- The walk exactly as claim C3 words it: a new output line starts when
the page changes or `|y - previous.y| > previous.height × 0.5` — the
PREVIOUS char's height (the code uses the current char's height). -/
def claim_lines (prev : SelectableChar) (acc : String) :
    List SelectableChar → List String
  | [] => [acc]
  | c :: rest =>
    if |c.y - prev.y| > prev.height * (1/2) ∨ c.page_index ≠ prev.page_index then
      acc :: claim_lines c c.char rest
    else
      claim_lines c
        (acc ++ (if (c.width + prev.width) / 2 * (3/10) < c.x - (prev.x + prev.width)
                 then " " else "") ++ c.char) rest

/-- `selected_text` as claim C3 describes it. -/
def selected_text_claim (chars : List SelectableChar) : String :=
  match chars.mergeSort claim_key_le with
  | [] => ""
  | c :: rest => String.intercalate "\n" (claim_lines c c.char rest)

theorem claim_key_le_trans : ∀ x y z : SelectableChar,
    claim_key_le x y = true → claim_key_le y z = true → claim_key_le x z = true := by
  intro x y z hxy hyz
  simp only [claim_key_le] at hxy hyz ⊢
  split_ifs at hxy hyz ⊢ <;> simp only [decide_eq_true_eq] at * <;>
    first | omega | linarith

theorem claim_key_le_total : ∀ x y : SelectableChar,
    (claim_key_le x y || claim_key_le y x) = true := by
  intro x y
  simp only [claim_key_le, Bool.or_eq_true]
  split_ifs <;> simp only [decide_eq_true_eq] <;>
    first | omega | exact le_total _ _

/-- Sorting an unsorted pair swaps it. -/
theorem mergeSort_pair_swap {α} (le : α → α → Bool)
    (htrans : ∀ x y z, le x y = true → le y z = true → le x z = true)
    (htot : ∀ x y, (le x y || le y x) = true)
    (a b : α) (hab : le a b = false) :
    [a, b].mergeSort le = [b, a] := by
  have hperm : List.Perm ([a, b].mergeSort le) [a, b] := List.mergeSort_perm _ _
  have hpw := List.sorted_mergeSort htrans htot [a, b]
  have hlen : ([a, b].mergeSort le).length = 2 := by rw [hperm.length_eq]; rfl
  match hm : ([a, b].mergeSort le) with
  | [] => rw [hm] at hlen; simp at hlen
  | [_] => rw [hm] at hlen; simp at hlen
  | _ :: _ :: _ :: _ => rw [hm] at hlen; simp at hlen
  | [x, y] =>
    rw [hm] at hperm hpw
    have hxy : le x y = true := (List.pairwise_cons.mp hpw).1 y (by simp)
    have hxmem : x ∈ [a, b] := hperm.mem_iff.mp (by simp)
    have hxab : x = a ∨ x = b := by simpa using hxmem
    rcases hxab with hx | hx
    · subst hx
      have hyb : List.Perm [y] [b] := (List.perm_cons x).mp hperm
      have hy : y = b := by simpa using hyb.mem_iff.mp (by simp)
      subst hy
      rw [hab] at hxy
      exact absurd hxy (by simp)
    · subst hx
      have hswap : List.Perm ([a, x] : List α) [x, a] := List.Perm.swap x a []
      have hya : List.Perm [y] [a] := (List.perm_cons x).mp (hperm.trans hswap)
      have hy : y = a := by simpa using hya.mem_iff.mp (by simp)
      rw [hy]

/-! Concrete selected-text inputs.  `exA2/exB2` share a line bucket but
have very different heights, separating the code's current-height break
test from the claim's previous-height one.  `exA3/exB3` have a page
offset of 3, separating the code's page-local sort key from the claim's
offset-based one. -/

def exA2 : SelectableChar := ⟨"a", 0, 0, 1, 100, 0, 0, 0⟩

def exB2 : SelectableChar := ⟨"b", 1, 2, 1, 1, 0, 0, 0⟩

def exA3 : SelectableChar := ⟨"a", 9, 4, 1, 1, 0, 0, 3⟩

def exB3 : SelectableChar := ⟨"b", 0, 6, 1, 1, 0, 0, 3⟩

/-- C3 counterexample: the code splits `exA2, exB2` into two lines
(`"a\nb"`, using the current char's height 1) where the claim keeps one
line (`"ab"`, using the previous height 100); and the code orders
`exA3, exB3` by the page-local key (`"a\nb"`) where the claim's
offset-based key reverses them (`"b\na"`). -/
theorem selected_text_cex :
    selected_text [exA2, exB2] ≠ selected_text_claim [exA2, exB2]
    ∧ selected_text [exA3, exB3] ≠ selected_text_claim [exA3, exB3] := by
  have h2a : selected_text [exA2, exB2] = "a\nb" := by
    rw [selected_text, if_neg (by simp)]
    rw [List.mergeSort_of_sorted (List.pairwise_pair.mpr
      (by norm_num [text_key_le, pyRound, Int.fract, exA2, exB2]))]
    simp only [walk_chars]
    norm_num [exA2, exB2]
    decide
  have h2b : selected_text_claim [exA2, exB2] = "ab" := by
    rw [selected_text_claim]
    rw [List.mergeSort_of_sorted (List.pairwise_pair.mpr
      (by norm_num [claim_key_le, pyRound, Int.fract, exA2, exB2,
        SelectableChar.yOff, SelectableChar.xOff]))]
    simp only [claim_lines]
    norm_num [exA2, exB2]
    decide
  have h3a : selected_text [exA3, exB3] = "a\nb" := by
    rw [selected_text, if_neg (by simp)]
    rw [List.mergeSort_of_sorted (List.pairwise_pair.mpr
      (by norm_num [text_key_le, pyRound, Int.fract, exA3, exB3]))]
    simp only [walk_chars]
    norm_num [exA3, exB3]
    decide
  have h3b : selected_text_claim [exA3, exB3] = "b\na" := by
    rw [selected_text_claim]
    rw [mergeSort_pair_swap claim_key_le claim_key_le_trans claim_key_le_total
      exA3 exB3 (by norm_num [claim_key_le, pyRound, Int.fract, exA3, exB3,
        SelectableChar.yOff, SelectableChar.xOff])]
    simp only [claim_lines]
    norm_num [exA3, exB3]
    decide
  refine ⟨?_, ?_⟩
  · rw [h2a, h2b]
    decide
  · rw [h3a, h3b]
    decide

/-- C4: for two consecutive same-line characters, a gap strictly greater
than `0.3 ×` the average of the two widths produces exactly one inserted
space in `selected_text`, and a smaller or equal gap produces none. -/
theorem selected_text_space (a b : SelectableChar)
    (hord : text_key_le a b = true)
    (hpage : b.page_index = a.page_index)
    (hline : ¬(|b.y - a.y| > b.height * (1/2))) :
    selected_text [a, b]
      = a.char ++ (if (b.width + a.width) / 2 * (3/10) < b.x - (a.x + a.width)
                   then " " else "") ++ b.char := by
  rw [selected_text, if_neg (by simp)]
  rw [List.mergeSort_of_sorted (List.pairwise_pair.mpr hord)]
  simp only [walk_chars, List.nil_append]
  have hbrk : ¬(|b.y - a.y| > b.height * (1/2)
      ∨ some b.page_index ≠ some a.page_index) := by
    rintro (h | h)
    · exact hline h
    · exact h (by rw [hpage])
  rw [if_neg hbrk]
  by_cases hgap : (b.width + a.width) / 2 * (3/10) < b.x - (a.x + a.width)
  · have hcnd : some b.page_index = some a.page_index
        ∧ (b.width + a.width) / 2 * (3/10) < b.x - (a.x + a.width) :=
      ⟨by rw [hpage], hgap⟩
    rw [if_pos hcnd, if_pos hgap]
    rw [if_neg (by simp)]
    show String.intercalate "\n" [String.join ([a.char] ++ [" ", b.char])] = _
    rw [join_push2, join_singleton]
    rfl
  · have hcnd : ¬(some b.page_index = some a.page_index
        ∧ (b.width + a.width) / 2 * (3/10) < b.x - (a.x + a.width)) := by
      rintro ⟨-, h⟩
      exact hgap h
    rw [if_neg hcnd, if_neg hgap]
    rw [if_neg (by simp)]
    show String.intercalate "\n" [String.join ([a.char] ++ [b.char])] = _
    rw [join_push, join_singleton]
    show a.char ++ b.char = _
    rw [String.append_empty]

def exW1 : SelectableChar := ⟨"a", 0, 0, 4, 10, 0, 0, 0⟩

def exW2 : SelectableChar := ⟨"b", 9, 0, 4, 10, 0, 0, 0⟩

def exW3 : SelectableChar := ⟨"c", 0, 0, 4, 10, 0, 0, 0⟩

def exW4 : SelectableChar := ⟨"d", 5, 0, 4, 10, 0, 0, 0⟩

/-- C4 witness: widths 4 and 4 give threshold `0.3 × 4 = 1.2`; a gap of
5 inserts one space (`"a b"`), a gap of 1 inserts none (`"cd"`). -/
theorem selected_text_space_witness :
    (text_key_le exW1 exW2 = true ∧ exW2.page_index = exW1.page_index
      ∧ ¬(|exW2.y - exW1.y| > exW2.height * (1/2))
      ∧ selected_text [exW1, exW2] = "a b")
    ∧ (text_key_le exW3 exW4 = true ∧ exW4.page_index = exW3.page_index
      ∧ ¬(|exW4.y - exW3.y| > exW4.height * (1/2))
      ∧ selected_text [exW3, exW4] = "cd") := by
  have o1 : text_key_le exW1 exW2 = true := by
    norm_num [text_key_le, pyRound, Int.fract, exW1, exW2]
  have p1 : exW2.page_index = exW1.page_index := by norm_num [exW1, exW2]
  have l1 : ¬(|exW2.y - exW1.y| > exW2.height * (1/2)) := by
    norm_num [exW1, exW2]
  have o2 : text_key_le exW3 exW4 = true := by
    norm_num [text_key_le, pyRound, Int.fract, exW3, exW4]
  have p2 : exW4.page_index = exW3.page_index := by norm_num [exW3, exW4]
  have l2 : ¬(|exW4.y - exW3.y| > exW4.height * (1/2)) := by
    norm_num [exW3, exW4]
  refine ⟨⟨o1, p1, l1, ?_⟩, ⟨o2, p2, l2, ?_⟩⟩
  · rw [selected_text_space exW1 exW2 o1 p1 l1]
    rw [if_pos (by norm_num [exW1, exW2])]
    decide
  · rw [selected_text_space exW3 exW4 o2 p2 l2]
    rw [if_neg (by norm_num [exW3, exW4])]
    decide

/-! Ink drawing (interactions/drawing.py) and interactive shapes
(interactions/shapes.py). -/

/-- Embeds `DrawingState` (drawing.py lines 13-20). -/
structure DrawingState where
  enabled : Bool
  color : ℚ × ℚ × ℚ
  width : ℚ
  current_path : List (ℚ × ℚ)
deriving DecidableEq, Repr

/-- Embeds `DrawingHandler.end_stroke` (drawing.py lines 76-80): it
returns the recorded path UNCONDITIONALLY — with 0 or 1 points it still
returns that short path, never `None` — and clears the state. -/
def end_stroke (st : DrawingState) : List (ℚ × ℚ) × DrawingState :=
  (st.current_path, { st with current_path := [] })

/-- Embeds the commit decision of `PDFViewer._save_ink_annotation`
(viewer.py lines 1181-1189): the caller discards the stroke when there
is no source or the returned path has fewer than 2 points, otherwise it
commits the path scaled into PDF coordinates. -/
def save_ink_commit (hasSource : Bool) (scale : ℚ) (st : DrawingState) :
    Option (List (ℚ × ℚ)) × DrawingState :=
  let r := end_stroke st
  if ¬hasSource ∨ r.1.isEmpty ∨ r.1.length < 2 then (none, r.2)
  else (some (r.1.map fun p => (p.1 / scale, p.2 / scale)), r.2)

/-- Embeds `types.ShapeType`. -/
inductive ShapeType where
  | none
  | rectangle
  | circle
  | line
  | arrow
  | text
deriving DecidableEq, Repr

/-- Embeds `ShapeDrawingState` (shapes.py lines 13-26). -/
structure ShapeDrawingState where
  shape_type : ShapeType
  stroke_color : ℚ × ℚ × ℚ
  fill_color : Option (ℚ × ℚ × ℚ)
  stroke_width : ℚ
  start_x : Option ℚ
  start_y : Option ℚ
  end_x : Option ℚ
  end_y : Option ℚ
  is_drawing : Bool
deriving DecidableEq, Repr

/-- Embeds `ShapeDrawingHandler._clear_points` (shapes.py lines 133-139). -/
def clear_points (st : ShapeDrawingState) : ShapeDrawingState :=
  { st with start_x := Option.none, start_y := Option.none,
            end_x := Option.none, end_y := Option.none, is_drawing := false }

/-- Embeds `ShapeDrawingHandler.end_shape` (shapes.py lines 99-127):
`None` when not drawing (state untouched) or when an endpoint is missing
(state cleared); otherwise the shape tuple, clearing the state. -/
def end_shape (st : ShapeDrawingState) :
    Option (ShapeType × ℚ × ℚ × ℚ × ℚ) × ShapeDrawingState :=
  if st.is_drawing then
    match st.start_x, st.start_y, st.end_x, st.end_y with
    | some sx, some sy, some ex, some ey =>
        (some (st.shape_type, sx, sy, ex, ey), clear_points st)
    | _, _, _, _ => (Option.none, clear_points st)
  else (Option.none, st)

/-- C5 counterexample: `end_stroke` on a one-point path returns that
one-point path — a non-empty value, not "nothing". -/
theorem end_stroke_cex :
    (end_stroke ⟨true, (0, 0, 0), 2, [(0, 0)]⟩).1 = [(0, 0)]
    ∧ ([((0 : ℚ), (0 : ℚ))] : List (ℚ × ℚ)) ≠ [] :=
  ⟨rfl, by simp⟩

/-- C5 (amended): `end_stroke` returns and clears the recorded path
unconditionally; the ink-commit caller treats a path with fewer than 2
points as nothing to commit; `end_shape` returns nothing when not
drawing or when any endpoint is missing. -/
theorem insufficient_points_commit (st : DrawingState) (hasSource : Bool)
    (scale : ℚ) (sst : ShapeDrawingState) :
    ((end_stroke st).1 = st.current_path)
    ∧ (st.current_path.length < 2 → (save_ink_commit hasSource scale st).1 = Option.none)
    ∧ (sst.is_drawing = false → (end_shape sst).1 = Option.none)
    ∧ (sst.start_x = Option.none ∨ sst.start_y = Option.none
        ∨ sst.end_x = Option.none ∨ sst.end_y = Option.none →
        (end_shape sst).1 = Option.none) := by
  refine ⟨rfl, ?_, ?_, ?_⟩
  · intro h
    rw [save_ink_commit,
      if_pos (Or.inr (Or.inr (show (end_stroke st).1.length < 2 from h)))]
  · intro h
    rw [end_shape, if_neg (by rw [h]; exact Bool.false_ne_true)]
  · intro h
    rw [end_shape]
    by_cases hd : sst.is_drawing = true
    · rw [if_pos hd]
      split
      · rename_i sx sy ex ey heq1 heq2 heq3 heq4
        rcases h with h | h | h | h <;> simp_all
      · rfl
    · rw [if_neg hd]

def exInk : DrawingState := ⟨true, (0, 0, 0), 2, [(0, 0)]⟩

def exShapeIdle : ShapeDrawingState :=
  ⟨ShapeType.line, (0, 0, 0), Option.none, 2,
   Option.none, Option.none, Option.none, Option.none, false⟩

def exShapeMissing : ShapeDrawingState :=
  ⟨ShapeType.line, (0, 0, 0), Option.none, 2,
   some 0, some 0, Option.none, Option.none, true⟩

/-- C5 witness: a one-point stroke is returned as-is but not committed;
`end_shape` yields nothing when idle and when an endpoint is missing. -/
theorem insufficient_points_commit_witness :
    (end_stroke exInk).1 = exInk.current_path
    ∧ exInk.current_path.length < 2
    ∧ (save_ink_commit true 1 exInk).1 = Option.none
    ∧ exShapeIdle.is_drawing = false
    ∧ (end_shape exShapeIdle).1 = Option.none
    ∧ exShapeMissing.end_x = Option.none
    ∧ (end_shape exShapeMissing).1 = Option.none :=
  ⟨(insufficient_points_commit exInk true 1 exShapeIdle).1,
   by decide,
   (insufficient_points_commit exInk true 1 exShapeIdle).2.1 (by decide),
   rfl,
   (insufficient_points_commit exInk true 1 exShapeIdle).2.2.1 rfl,
   rfl,
   (insufficient_points_commit exInk true 1 exShapeMissing).2.2.2
     (Or.inr (Or.inr (Or.inl rfl)))⟩

/-! Catmull-Rom smoothing (rendering/renderer.py lines 366-399). -/

/-- A flet canvas path element as emitted by `_catmull_rom_to_bezier`:
`cv.Path.MoveTo`, `cv.Path.LineTo` or `cv.Path.CubicTo`. -/
inductive PathElem where
  | moveTo (x y : ℚ)
  | lineTo (x y : ℚ)
  | cubicTo (c1x c1y c2x c2y x y : ℚ)
deriving DecidableEq, Repr

/-- The loop of renderer.py lines 387-397: one cubic Bézier per window
of 4 consecutive padded points `(p0,p1,p2,p3)`, from `p1` to `p2` with
control points `p1 + (p2-p0)*tension/3` and `p2 - (p3-p1)*tension/3`. -/
def catmull_segs (tension : ℚ) : List (ℚ × ℚ) → List PathElem
  | p0 :: p1 :: p2 :: p3 :: rest =>
      PathElem.cubicTo
        (p1.1 + (p2.1 - p0.1) * tension / 3) (p1.2 + (p2.2 - p0.2) * tension / 3)
        (p2.1 - (p3.1 - p1.1) * tension / 3) (p2.2 - (p3.2 - p1.2) * tension / 3)
        p2.1 p2.2
      :: catmull_segs tension (p1 :: p2 :: p3 :: rest)
  | _ => []

/-- Embeds `PDFRenderer._catmull_rom_to_bezier` (renderer.py lines
366-399): fewer than 2 points yield no elements, exactly 2 a straight
`MoveTo`/`LineTo` segment, otherwise the list is padded by duplicating
the first and last points and converted window-by-window. -/
def catmull_rom_to_bezier (points : List (ℚ × ℚ)) (scale tension : ℚ) :
    List PathElem :=
  match points.map (fun p => (p.1 * scale, p.2 * scale)) with
  | [] => []
  | [_] => []
  | [a, b] => [PathElem.moveTo a.1 a.2, PathElem.lineTo b.1 b.2]
  | a :: rest =>
      PathElem.moveTo a.1 a.2
        :: catmull_segs tension (a :: a :: rest ++ [(a :: rest).getLastD a])

/-- The target point of each element of a path: where the pen ends after
the element is drawn. -/
def path_endpoints : List PathElem → List (ℚ × ℚ)
  | [] => []
  | PathElem.moveTo x y :: rest => (x, y) :: path_endpoints rest
  | PathElem.lineTo x y :: rest => (x, y) :: path_endpoints rest
  | PathElem.cubicTo _ _ _ _ x y :: rest => (x, y) :: path_endpoints rest

theorem map_scale_one (l : List (ℚ × ℚ)) :
    l.map (fun p => (p.1 * 1, p.2 * 1)) = l := by
  induction l with
  | nil => rfl
  | cons p t ih => simp [ih]

/-- The cubic windows end, in order, at every padded point from the
third on, except the final one. -/
theorem path_endpoints_catmull_segs (t : ℚ) (l : List (ℚ × ℚ)) :
    ∀ a b : ℚ × ℚ, path_endpoints (catmull_segs t (a :: b :: l)) = l.dropLast := by
  induction l with
  | nil => intro a b; rfl
  | cons c l' ih =>
    intro a b
    cases l' with
    | nil => rfl
    | cons d l'' =>
      show ((c.1, c.2) : ℚ × ℚ) :: path_endpoints (catmull_segs t (b :: c :: d :: l''))
          = (c :: d :: l'').dropLast
      rw [ih b c]
      rfl

/-- C6: Catmull-Rom pass-through at `scale = 1`, `tension = 1/2`: for
`n ≥ 3` points the generated path's element endpoints are exactly the
input points; `n = 2` yields one straight segment; `n < 2` yields no
renderable elements. -/
theorem catmull_rom_passthrough :
    (∀ (p0 p1 p2 : ℚ × ℚ) (rest : List (ℚ × ℚ)),
      path_endpoints (catmull_rom_to_bezier (p0 :: p1 :: p2 :: rest) 1 (1/2))
        = p0 :: p1 :: p2 :: rest)
    ∧ (∀ p0 p1 : ℚ × ℚ, catmull_rom_to_bezier [p0, p1] 1 (1/2)
        = [PathElem.moveTo p0.1 p0.2, PathElem.lineTo p1.1 p1.2])
    ∧ (∀ p0 : ℚ × ℚ, catmull_rom_to_bezier [p0] 1 (1/2) = [])
    ∧ catmull_rom_to_bezier ([] : List (ℚ × ℚ)) 1 (1/2) = [] := by
  refine ⟨?_, ?_, ?_, rfl⟩
  · intro p0 p1 p2 rest
    simp only [catmull_rom_to_bezier, map_scale_one]
    show (p0.1, p0.2) :: path_endpoints (catmull_segs (1/2)
        (p0 :: p0 :: ((p1 :: p2 :: rest) ++ [(p0 :: p1 :: p2 :: rest).getLastD p0])))
      = p0 :: p1 :: p2 :: rest
    rw [path_endpoints_catmull_segs, List.dropLast_concat]
  · intro p0 p1
    simp only [catmull_rom_to_bezier, map_scale_one]
  · intro p0
    simp only [catmull_rom_to_bezier, map_scale_one]

/-! Arrow-head construction (viewer.py lines 1312-1355).  The trig runs
on the reals; `math.atan2` is modelled below (floating-point signed
zeros aside, which ℝ cannot distinguish). -/

/-- `math.atan2(y, x)`. -/
noncomputable def atan2 (y x : ℝ) : ℝ :=
  if 0 < x then Real.arctan (y / x)
  else if x < 0 then
    (if 0 ≤ y then Real.arctan (y / x) + Real.pi else Real.arctan (y / x) - Real.pi)
  else
    (if 0 < y then Real.pi / 2 else if y < 0 then -(Real.pi / 2) else 0)

/-- Embeds `PDFViewer._create_arrow_head` (viewer.py lines 1312-1355) as
the filled triangle it draws: `(end, backPoint1, backPoint2)`. -/
noncomputable def create_arrow_head (x1 y1 x2 y2 stroke_width : ℝ) :
    (ℝ × ℝ) × (ℝ × ℝ) × (ℝ × ℝ) :=
  let dx := x2 - x1
  let dy := y2 - y1
  let angle := atan2 dy dx
  let arrow_length := max 12 (stroke_width * 4)
  let arrow_angle := Real.pi / 6
  let ax1 := x2 - arrow_length * Real.cos (angle - arrow_angle)
  let ay1 := y2 - arrow_length * Real.sin (angle - arrow_angle)
  let ax2 := x2 - arrow_length * Real.cos (angle + arrow_angle)
  let ay2 := y2 - arrow_length * Real.sin (angle + arrow_angle)
  ((x2, y2), (ax1, ay1), (ax2, ay2))

/-- C7: the arrow head is a pure function of the endpoints and stroke
width: the triangle `(end, end - L·(cos(θ∓30°), sin(θ∓30°)))` with
`θ = atan2(dy, dx)`, `L = max(12, strokeWidth·4)` and 30° in radians. -/
theorem create_arrow_head_spec (x1 y1 x2 y2 w : ℝ) :
    create_arrow_head x1 y1 x2 y2 w
      = ((x2, y2),
         (x2 - max 12 (w * 4) * Real.cos (atan2 (y2 - y1) (x2 - x1) - 30 * Real.pi / 180),
          y2 - max 12 (w * 4) * Real.sin (atan2 (y2 - y1) (x2 - x1) - 30 * Real.pi / 180)),
         (x2 - max 12 (w * 4) * Real.cos (atan2 (y2 - y1) (x2 - x1) + 30 * Real.pi / 180),
          y2 - max 12 (w * 4) * Real.sin (atan2 (y2 - y1) (x2 - x1) + 30 * Real.pi / 180))) := by
  unfold create_arrow_head
  have h : (30 : ℝ) * Real.pi / 180 = Real.pi / 6 := by ring
  rw [h]

/-! Search navigation (viewer.py lines 457-543). -/

/-- Embeds `types.SearchResult`. -/
structure SearchResult where
  page_index : ℕ
  rect : ℚ × ℚ × ℚ × ℚ
  text : String
  quads : Option (List (ℚ × ℚ × ℚ × ℚ))
deriving DecidableEq, Repr

/-- The viewer's search state: `_search_results` and `_search_index`. -/
structure SearchViewState where
  results : List SearchResult
  index : ℤ
deriving DecidableEq, Repr

/-- Embeds `PDFViewer.search_next` (viewer.py lines 517-529). -/
def search_next (st : SearchViewState) : Option SearchResult × SearchViewState :=
  if st.results.isEmpty then (Option.none, st)
  else
    let i := (st.index + 1) % (st.results.length : ℤ)
    (st.results.get? i.toNat, { st with index := i })

/-- Embeds `PDFViewer.search_prev` (viewer.py lines 531-543). -/
def search_prev (st : SearchViewState) : Option SearchResult × SearchViewState :=
  if st.results.isEmpty then (Option.none, st)
  else
    let i := (st.index - 1) % (st.results.length : ℤ)
    (st.results.get? i.toNat, { st with index := i })

/-- C8: with `n > 0` results the next/prev index is the mathematically
correct non-negative modulo of `index ± 1`, wrapping `n-1 → 0` and
`0 → n-1`, and a result is returned; with no results both calls are
no-ops returning nothing. -/
theorem search_wraparound (results : List SearchResult) (i : ℤ) :
    (results = [] →
      search_next ⟨results, i⟩ = (Option.none, ⟨results, i⟩)
      ∧ search_prev ⟨results, i⟩ = (Option.none, ⟨results, i⟩))
    ∧ (results ≠ [] →
      (search_next ⟨results, i⟩).2.index = (i + 1) % (results.length : ℤ)
      ∧ (search_prev ⟨results, i⟩).2.index = (i - 1) % (results.length : ℤ)
      ∧ 0 ≤ (i + 1) % (results.length : ℤ)
      ∧ (i + 1) % (results.length : ℤ) < results.length
      ∧ 0 ≤ (i - 1) % (results.length : ℤ)
      ∧ (i - 1) % (results.length : ℤ) < results.length
      ∧ (i = results.length - 1 → (search_next ⟨results, i⟩).2.index = 0)
      ∧ (i = 0 → (search_prev ⟨results, i⟩).2.index = results.length - 1)
      ∧ (∃ r, (search_next ⟨results, i⟩).1 = some r)
      ∧ (∃ r, (search_prev ⟨results, i⟩).1 = some r)) := by
  constructor
  · intro h
    subst h
    exact ⟨rfl, rfl⟩
  · intro h
    have hlen : 0 < results.length := List.length_pos.mpr h
    have hemp : ¬(results.isEmpty = true) := by
      simp [List.isEmpty_iff, h]
    have hlz : (results.length : ℤ) ≠ 0 := by
      simp only [ne_eq, Nat.cast_eq_zero]
      omega
    have hn1 : 0 ≤ (i + 1) % (results.length : ℤ) := Int.emod_nonneg _ hlz
    have hn2 : (i + 1) % (results.length : ℤ) < results.length :=
      Int.emod_lt_of_pos _ (by exact_mod_cast hlen)
    have hp1 : 0 ≤ (i - 1) % (results.length : ℤ) := Int.emod_nonneg _ hlz
    have hp2 : (i - 1) % (results.length : ℤ) < results.length :=
      Int.emod_lt_of_pos _ (by exact_mod_cast hlen)
    have hidxn : (search_next ⟨results, i⟩).2.index = (i + 1) % (results.length : ℤ) := by
      rw [search_next, if_neg hemp]
    have hidxp : (search_prev ⟨results, i⟩).2.index = (i - 1) % (results.length : ℤ) := by
      rw [search_prev, if_neg hemp]
    refine ⟨hidxn, hidxp, hn1, hn2, hp1, hp2, ?_, ?_, ?_, ?_⟩
    · intro hi
      rw [hidxn, hi]
      have h1 : ((results.length : ℤ) - 1 + 1) = (results.length : ℤ) := by ring
      rw [h1, Int.emod_self]
    · intro hi
      rw [hidxp, hi]
      have h1 : ((0 : ℤ) - 1)
          = ((results.length : ℤ) - 1) + (results.length : ℤ) * (-1) := by ring
      rw [h1, Int.add_mul_emod_self_left]
      exact Int.emod_eq_of_lt (by omega) (by omega)
    · have hlt : ((i + 1) % (results.length : ℤ)).toNat < results.length := by omega
      exact ⟨results.get ⟨_, hlt⟩, by rw [search_next, if_neg hemp]; exact List.get?_eq_get hlt⟩
    · have hlt : ((i - 1) % (results.length : ℤ)).toNat < results.length := by omega
      exact ⟨results.get ⟨_, hlt⟩, by rw [search_prev, if_neg hemp]; exact List.get?_eq_get hlt⟩

/-- C8 witness: three results, wrapping forward from index 2 to 0 and
backward from index 0 to 2. -/
theorem search_wraparound_witness :
    (([⟨0, (0, 0, 0, 0), "m", Option.none⟩, ⟨1, (0, 0, 0, 0), "m", Option.none⟩,
       ⟨2, (0, 0, 0, 0), "m", Option.none⟩] : List SearchResult) ≠ [])
    ∧ (search_next ⟨[⟨0, (0, 0, 0, 0), "m", Option.none⟩, ⟨1, (0, 0, 0, 0), "m", Option.none⟩,
         ⟨2, (0, 0, 0, 0), "m", Option.none⟩], 2⟩).2.index = 0
    ∧ (search_prev ⟨[⟨0, (0, 0, 0, 0), "m", Option.none⟩, ⟨1, (0, 0, 0, 0), "m", Option.none⟩,
         ⟨2, (0, 0, 0, 0), "m", Option.none⟩], 0⟩).2.index = 3 - 1 := by
  have hne : ([⟨0, (0, 0, 0, 0), "m", Option.none⟩, ⟨1, (0, 0, 0, 0), "m", Option.none⟩,
      ⟨2, (0, 0, 0, 0), "m", Option.none⟩] : List SearchResult) ≠ [] := by simp
  refine ⟨hne, ?_, ?_⟩
  · have h := ((search_wraparound [⟨0, (0, 0, 0, 0), "m", Option.none⟩,
      ⟨1, (0, 0, 0, 0), "m", Option.none⟩, ⟨2, (0, 0, 0, 0), "m", Option.none⟩] 2).2 hne).2.2.2.2.2.2.1
    exact h (by simp)
  · have h := ((search_wraparound [⟨0, (0, 0, 0, 0), "m", Option.none⟩,
      ⟨1, (0, 0, 0, 0), "m", Option.none⟩, ⟨2, (0, 0, 0, 0), "m", Option.none⟩] 0).2 hne).2.2.2.2.2.2.2.1
    have h2 := h rfl
    rw [h2]
    simp

/-- The page loop of `PDFViewer.search` (viewer.py lines 493-497):
results of every page, in document order, appended in in-page order. -/
def search_collect (pageFn : ℕ → List SearchResult) (page_count : ℕ) :
    List SearchResult :=
  (List.range page_count).foldl (fun acc idx => acc ++ pageFn idx) []

/-- The initial-index loop of `PDFViewer.search` (viewer.py lines
499-507): the first result index whose page is at least `start`,
defaulting to 0 when none qualifies. -/
def search_init_index (results : List SearchResult) (start : ℕ) : ℕ :=
  match results.findIdx? (fun r => decide (start ≤ r.page_index)) with
  | some i => i
  | Option.none => 0

/-- Embeds `PDFViewer.search` (viewer.py lines 457-515), returning
`none` when the search is cleared (no source or empty query), and
otherwise the collected results with the chosen `_search_index`. -/
def search (query : String) (pageFn : ℕ → List SearchResult) (page_count : ℕ)
    (start_page : Option ℕ) (current_page : ℕ) (hasSource : Bool) :
    Option (List SearchResult × ℤ) :=
  if ¬hasSource ∨ query = "" then Option.none
  else
    let results := search_collect pageFn page_count
    if results.isEmpty then some (results, -1)
    else some (results, (search_init_index results (start_page.getD current_page) : ℤ))

theorem foldl_append_eq_join (pageFn : ℕ → List SearchResult) :
    ∀ (l : List ℕ) (acc : List SearchResult),
      l.foldl (fun a idx => a ++ pageFn idx) acc = acc ++ (l.map pageFn).flatten := by
  intro l
  induction l with
  | nil => intro acc; simp
  | cons i t ih => intro acc; simp [ih, List.append_assoc]

/-- The collected results are the concatenation of the per-page results
in document order. -/
theorem search_collect_eq_join (pageFn : ℕ → List SearchResult) (n : ℕ) :
    search_collect pageFn n = ((List.range n).map pageFn).flatten := by
  rw [search_collect, foldl_append_eq_join]
  rfl

/-- `findIdx?` finds the FIRST index satisfying the predicate. -/
theorem findIdx?_some_spec {α} (p : α → Bool) :
    ∀ (l : List α) (i : ℕ), l.findIdx? p = some i →
      ∃ h : i < l.length, p (l.get ⟨i, h⟩) = true
        ∧ ∀ j (hj : j < l.length), j < i → p (l.get ⟨j, hj⟩) = false := by
  intro l
  induction l with
  | nil =>
    intro i h
    rw [List.findIdx?_nil] at h
    exact absurd h (by simp)
  | cons a t ih =>
    intro i h
    rw [List.findIdx?_cons] at h
    by_cases hp : p a = true
    · rw [if_pos hp] at h
      have hi : i = 0 := by
        have := h
        simp at this
        omega
      subst hi
      exact ⟨by simp, hp, fun j hj hji => absurd hji (by omega)⟩
    · rw [if_neg hp, List.findIdx?_succ] at h
      cases hfd : t.findIdx? p with
      | none =>
        rw [hfd] at h
        simp at h
      | some k =>
        rw [hfd] at h
        simp at h
        obtain ⟨hk, hpk, hmin⟩ := ih k hfd
        have hi : i = k + 1 := h.symm
        subst hi
        refine ⟨by simpa using Nat.succ_lt_succ hk, hpk, ?_⟩
        intro j hj hji
        cases j with
        | zero => simpa using hp
        | succ j' => exact hmin j' (by simpa using hj) (by omega)

/-- The code's chosen index: the first result on or after `start`, else
index 0. -/
theorem search_init_index_spec (results : List SearchResult) (start : ℕ) :
    (∃ h : search_init_index results start < results.length,
        start ≤ (results.get ⟨search_init_index results start, h⟩).page_index
        ∧ ∀ j (hj : j < results.length), j < search_init_index results start →
            (results.get ⟨j, hj⟩).page_index < start)
    ∨ ((∀ r ∈ results, r.page_index < start)
        ∧ search_init_index results start = 0) := by
  cases hf : results.findIdx? (fun r => decide (start ≤ r.page_index)) with
  | none =>
    right
    constructor
    · intro r hr
      have := List.findIdx?_eq_none_iff.mp hf r hr
      simpa using this
    · rw [search_init_index, hf]
  | some k =>
    left
    obtain ⟨hk, hpk, hmin⟩ := findIdx?_some_spec _ results k hf
    have hval : search_init_index results start = k := by
      rw [search_init_index, hf]
    rw [hval]
    refine ⟨hk, by simpa using hpk, ?_⟩
    intro j hj hji
    have := hmin j hj hji
    simpa using this

/-- C9: with a source, a non-empty query and a non-empty result list,
`search` returns the concatenated document-order results with
`currentIndex` the index of the first result whose page is `≥ start`
(`start` defaulting to the current page), wrapping to 0 when no result
is on or after `start`. -/
theorem search_initial_index (query : String) (pageFn : ℕ → List SearchResult)
    (page_count : ℕ) (start_page : Option ℕ) (current_page : ℕ)
    (hq : query ≠ "")
    (hres : search_collect pageFn page_count ≠ []) :
    search query pageFn page_count start_page current_page true
      = some (search_collect pageFn page_count,
          (search_init_index (search_collect pageFn page_count)
            (start_page.getD current_page) : ℤ))
    ∧ search_collect pageFn page_count = ((List.range page_count).map pageFn).flatten
    ∧ ((∃ h : search_init_index (search_collect pageFn page_count)
            (start_page.getD current_page) < (search_collect pageFn page_count).length,
          start_page.getD current_page
            ≤ ((search_collect pageFn page_count).get
                ⟨search_init_index (search_collect pageFn page_count)
                  (start_page.getD current_page), h⟩).page_index
          ∧ ∀ j (hj : j < (search_collect pageFn page_count).length),
              j < search_init_index (search_collect pageFn page_count)
                  (start_page.getD current_page) →
                ((search_collect pageFn page_count).get ⟨j, hj⟩).page_index
                  < start_page.getD current_page)
        ∨ ((∀ r ∈ search_collect pageFn page_count,
              r.page_index < start_page.getD current_page)
            ∧ search_init_index (search_collect pageFn page_count)
                (start_page.getD current_page) = 0)) := by
  refine ⟨?_, search_collect_eq_join pageFn page_count,
    search_init_index_spec (search_collect pageFn page_count)
      (start_page.getD current_page)⟩
  rw [search, if_neg (by
    rintro (h | h)
    · exact h (by rfl)
    · exact hq h)]
  rw [if_neg (by simp [List.isEmpty_iff, hres])]

/-- The spec's scenario page function: a match on page 0 and a match on
page 4, nothing elsewhere (in particular nothing on page 2). -/
def exPageFn : ℕ → List SearchResult := fun i =>
  if i = 0 then [⟨0, (0, 0, 0, 0), "cat", Option.none⟩]
  else if i = 4 then [⟨4, (0, 0, 0, 0), "cat", Option.none⟩] else []

/-- C9 witness: searching "cat" over five pages starting at page 2
chooses the page-4 result (index 1), not the page-0 one. -/
theorem search_initial_index_witness :
    ("cat" ≠ "")
    ∧ search_collect exPageFn 5 ≠ []
    ∧ search "cat" exPageFn 5 (some 2) 0 true
        = some (search_collect exPageFn 5,
            (search_init_index (search_collect exPageFn 5) ((some 2).getD 0) : ℤ))
    ∧ search_init_index (search_collect exPageFn 5) 2 = 1 := by
  have hq : ("cat" : String) ≠ "" := by decide
  have hres : search_collect exPageFn 5 ≠ [] := by
    intro h
    have := congrArg List.length h
    rw [show (search_collect exPageFn 5).length = 2 from rfl] at this
    simp at this
  exact ⟨hq, hres,
    (search_initial_index "cat" exPageFn 5 (some 2) 0 hq hres).1,
    rfl⟩

end PdfViewer
